import Mathlib

/-!
# SpreadsheetWeb: the document store of `Server/spreadsheet.cc` and the session

A shallow embedding of the class `spreadsheet` (its constructor, `save`, `load`,
`create`, `authenticate`, `is_loaded`, `get_version`, `update_cell`,
`get_cell_contents`, `increment_version`) together with the part of the C++
stream library the class relies on:

* `std::string` is a list of characters, one `Char` standing for one `char`;
* `std::map<std::string, std::string>` is an association list kept in strictly
  ascending key order, the order in which the map's iterator visits it;
* `std::ifstream` is the unread rest of the file with the `eofbit` and `failbit`
  flags; `operator>>` and `std::getline` follow the formatted-input rules
  (sentry, whitespace skipping, flag setting);
* the file system is a function from file names to contents, with a flag telling
  whether a name can be opened for writing;
* `int` is a mathematical integer confined to the 32-bit two's complement range.

The read loop of `load` is driven by a step budget: `none` means that the loop
had not left `while(!file.eof())` when the budget was used up.

`Server/session.h` declares the members of `session` and the struct `undo_oper`;
the bodies of its methods are not among the sources, and the two operations the
properties need are written after the specification and marked as such.
-/

namespace SpreadsheetWeb

/-- A `std::string`: a sequence of `char`. -/
abbrev Str := List Char

/-! ## Characters and integers -/

/-- The whitespace test of the classic locale used by `operator>>` (`std::isspace`):
space, `\t`, `\n`, `\v`, `\f`, `\r`. -/
def isspace (c : Char) : Bool :=
  c.toNat = 32 || (9 ≤ c.toNat && c.toNat ≤ 13)

/-- The decimal digit test of `num_get`. -/
def isdigit (c : Char) : Bool :=
  48 ≤ c.toNat && c.toNat ≤ 57

/-- The numeric value of a decimal digit character. -/
def digitVal (c : Char) : Nat := c.toNat - 48

/-- The smallest `int`. -/
def INT_MIN : Int := -2147483648

/-- The largest `int`. -/
def INT_MAX : Int := 2147483647

/-- The values an `int` can hold. -/
def IsInt32 (v : Int) : Prop := INT_MIN ≤ v ∧ v ≤ INT_MAX

instance (v : Int) : Decidable (IsInt32 v) := by
  unfold IsInt32; exact inferInstance

/-- Two's complement wrap-around of an integer into the `int` range. -/
def wrap32 (v : Int) : Int := (v + 2147483648) % 4294967296 - 2147483648

/-- The characters `operator<<(int)` writes for a non-negative value
(decimal, most significant digit first). -/
def decimalNat (n : Nat) : Str := Nat.toDigits 10 n

/-- The characters `operator<<(int)` writes: a minus sign for a negative value,
then the decimal digits of the magnitude. -/
def decimal (v : Int) : Str :=
  if v < 0 then '-' :: decimalNat v.natAbs else decimalNat v.natAbs

/-! ## The cell map (`std::map<std::string, std::string>`) -/

/-- The order `std::less<std::string>` puts on keys: lexicographic on the
character codes, a proper prefix coming first. -/
def strLt : Str → Str → Bool
  | [], [] => false
  | [], _ :: _ => true
  | _ :: _, [] => false
  | a :: as, b :: bs =>
    if a.toNat < b.toNat then true
    else if b.toNat < a.toNat then false
    else strLt as bs

/-- The entries of a `std::map`, in iteration order. -/
abbrev CellMap := List (Str × Str)

/-- The map lookup `find`: the value stored under a key, if any. -/
def mapFind : CellMap → Str → Option Str
  | [], _ => none
  | (k, v) :: rest, key => if k = key then some v else mapFind rest key

/-- The assignment `m[key] = value`: replaces the value of an existing key or
inserts the entry at its place in the key order. -/
def mapSet : CellMap → Str → Str → CellMap
  | [], key, value => [(key, value)]
  | (k, v) :: rest, key, value =>
    if k = key then (k, value) :: rest
    else if strLt key k then (key, value) :: (k, v) :: rest
    else (k, v) :: mapSet rest key value

/-- The read access `m[key]`: an absent key is first inserted with an empty
string; the result is the stored value and the map after the access. -/
def mapIndex (m : CellMap) (key : Str) : Str × CellMap :=
  match mapFind m key with
  | some v => (v, m)
  | none => ([], mapSet m key [])

/-- Keys strictly ascending: the shape every `std::map` has. -/
def keysAscending : CellMap → Bool
  | [] => true
  | [_] => true
  | (k₁, _) :: (k₂, v₂) :: rest => strLt k₁ k₂ && keysAscending ((k₂, v₂) :: rest)

/-! ## Input streams (`std::ifstream`) -/

/-- An input file stream: the characters not yet read and the two state flags
the code depends on. -/
structure IStream where
  /-- the characters not yet extracted -/
  buf : Str
  /-- set when an extraction reached the end of the file -/
  eofbit : Bool
  /-- set when an extraction failed -/
  failbit : Bool
  deriving DecidableEq

/-- A stream just opened on a file with the given content. -/
def IStream.opened (content : Str) : IStream :=
  { buf := content, eofbit := false, failbit := false }

/-- The test `good()`: no flag set. -/
def IStream.good (f : IStream) : Bool := !f.eofbit && !f.failbit

/-- The test `eof()`. -/
def IStream.eof (f : IStream) : Bool := f.eofbit

/-- Drops leading whitespace. -/
def skipws : Str → Str
  | [] => []
  | c :: cs => if isspace c then skipws cs else c :: cs

/-- The sentry of a formatted input function: fails and sets `failbit` when the
stream is not good; otherwise, when `skip` is set, discards leading whitespace,
and fails with `eofbit` and `failbit` when that reaches the end of the file. -/
def sentry (f : IStream) (skip : Bool) : Bool × IStream :=
  if !f.good then (false, { f with failbit := true })
  else if skip then
    match skipws f.buf with
    | [] => (false, { buf := [], eofbit := true, failbit := true })
    | c :: cs => (true, { f with buf := c :: cs })
  else (true, f)

/-- The characters up to the first whitespace, and the rest from that whitespace on. -/
def takeToken : Str → Str × Str
  | [] => ([], [])
  | c :: cs =>
    if isspace c then ([], c :: cs)
    else ((takeToken cs).1.cons c, (takeToken cs).2)

/-- The extraction `file >> str` into a string holding `old`: after the sentry,
characters are taken up to the next whitespace or the end of the file; reaching
the end sets `eofbit`, extracting nothing sets `failbit`. When the sentry fails
the string keeps its old value. -/
def readString (f : IStream) (old : Str) : IStream × Str :=
  match sentry f true with
  | (false, f₁) => (f₁, old)
  | (true, f₁) =>
    let tok := (takeToken f₁.buf).1
    let rest := (takeToken f₁.buf).2
    ({ buf := rest,
       eofbit := f₁.eofbit || rest.isEmpty,
       failbit := f₁.failbit || tok.isEmpty }, tok)

/-- The characters up to the first newline, and what follows that newline;
the flag tells whether a newline was found. -/
def takeLine : Str → Str × Str × Bool
  | [] => ([], [], false)
  | c :: cs =>
    if c = '\n' then ([], cs, true)
    else ((takeLine cs).1.cons c, (takeLine cs).2.1, (takeLine cs).2.2)

/-- The call `std::getline(file, str)` on a string holding `old`: the sentry does
not skip whitespace; characters are taken up to a newline, which is removed from
the stream and not stored; reaching the end of the file instead sets `eofbit`,
and extracting nothing at all sets `failbit`. When the sentry fails the string
keeps its old value. -/
def getline (f : IStream) (old : Str) : IStream × Str :=
  match sentry f false with
  | (false, f₁) => (f₁, old)
  | (true, f₁) =>
    let line := (takeLine f₁.buf).1
    let rest := (takeLine f₁.buf).2.1
    let found := (takeLine f₁.buf).2.2
    ({ buf := rest,
       eofbit := f₁.eofbit || !found,
       failbit := f₁.failbit || (line.isEmpty && !found) }, line)

/-- The leading decimal digits, and the rest. -/
def takeDigits : Str → Str × Str
  | [] => ([], [])
  | c :: cs =>
    if isdigit c then ((takeDigits cs).1.cons c, (takeDigits cs).2)
    else ([], c :: cs)

/-- The value of a digit sequence, most significant digit first. -/
def digitsValue (ds : Str) : Nat :=
  ds.foldl (fun acc c => acc * 10 + digitVal c) 0

/-- An optional sign: whether it is a minus, and the rest. -/
def takeSign : Str → Bool × Str
  | [] => (false, [])
  | c :: cs =>
    if c = '-' then (true, cs)
    else if c = '+' then (false, cs)
    else (false, c :: cs)

/-- The extraction `file >> n` into an `int` holding `old`: after the sentry, an
optional sign and the longest run of decimal digits are consumed. Without a digit
the value is 0 and `failbit` is set; a value outside the `int` range is replaced
by the nearest bound and `failbit` is set; reaching the end of the file sets
`eofbit`. When the sentry fails the variable keeps its old value. -/
def readInt (f : IStream) (old : Int) : IStream × Int :=
  match sentry f true with
  | (false, f₁) => (f₁, old)
  | (true, f₁) =>
    let neg := (takeSign f₁.buf).1
    let ds := (takeDigits (takeSign f₁.buf).2).1
    let rest := (takeDigits (takeSign f₁.buf).2).2
    let mag : Int := (digitsValue ds : Nat)
    let v : Int := if neg then -mag else mag
    let eofb := f₁.eofbit || rest.isEmpty
    if ds.isEmpty then ({ buf := rest, eofbit := eofb, failbit := true }, 0)
    else if v < INT_MIN then ({ buf := rest, eofbit := eofb, failbit := true }, INT_MIN)
    else if INT_MAX < v then ({ buf := rest, eofbit := eofb, failbit := true }, INT_MAX)
    else ({ buf := rest, eofbit := eofb, failbit := f₁.failbit }, v)

/-! ## The file system -/

/-- The files the store can see. -/
structure Disk where
  /-- the content of the file of a given name; `none` when the file cannot be
  opened for reading -/
  files : Str → Option Str
  /-- whether the file of a given name can be opened for writing -/
  writable : Str → Bool

/-- The disk after the file `name` was opened with `std::ios::out`, written
with `content` and closed. -/
def Disk.write (d : Disk) (name : Str) (content : Str) : Disk :=
  { d with files := fun n => if n = name then some content else d.files n }

/-! ## The class `spreadsheet` -/

/-- The data members of `spreadsheet`. -/
structure spreadsheet where
  loaded : Bool
  version : Int
  filename : Str
  cell_map : CellMap
  password : Str
  deriving DecidableEq

/-- The constructor `spreadsheet::spreadsheet(filename)`. -/
def spreadsheet.new (filename : Str) : spreadsheet :=
  { loaded := false, version := 0, filename := filename, cell_map := [], password := [] }

/-- One line of the body of a saved file: `name << " " << contents << std::endl`. -/
def cellLine (e : Str × Str) : Str := e.1 ++ ' ' :: e.2 ++ ['\n']

/-- The loop of `save` over the map's iterator, writing one line per entry. -/
def writeCells : CellMap → Str
  | [] => []
  | e :: rest => cellLine e ++ writeCells rest

/-- The characters `save` sends to the file:
`password << " " << version << std::endl`, then the cell lines. -/
def spreadsheet.fileText (s : spreadsheet) : Str :=
  s.password ++ ' ' :: decimal s.version ++ '\n' :: writeCells s.cell_map

/-- The method `spreadsheet::save`: nothing happens when the file cannot be opened
for writing; otherwise the file is replaced by the text of the store. The result is
the object and the disk after the call; no member is assigned. -/
def spreadsheet.save (s : spreadsheet) (d : Disk) : spreadsheet × Disk :=
  if d.writable s.filename then (s, d.write s.filename s.fileText) else (s, d)

/-- The method `spreadsheet::update_cell`: `cell_map[cell] = contents`. -/
def spreadsheet.update_cell (s : spreadsheet) (cell contents : Str) : spreadsheet :=
  { s with cell_map := mapSet s.cell_map cell contents }

/-- The method `spreadsheet::get_cell_contents`: `return cell_map[cell]`, which
inserts an empty entry for an absent name; the result is the contents and the
object after the call. -/
def spreadsheet.get_cell_contents (s : spreadsheet) (cell : Str) : Str × spreadsheet :=
  ((mapIndex s.cell_map cell).1, { s with cell_map := (mapIndex s.cell_map cell).2 })

/-- The method `spreadsheet::increment_version`: `version++` on an `int`. -/
def spreadsheet.increment_version (s : spreadsheet) : spreadsheet :=
  { s with version := wrap32 (s.version + 1) }

/-- The method `spreadsheet::is_loaded`. -/
def spreadsheet.is_loaded (s : spreadsheet) : Bool := s.loaded

/-- The method `spreadsheet::get_version`: the version when loaded, else -1. -/
def spreadsheet.get_version (s : spreadsheet) : Int :=
  if s.is_loaded then s.version else -1

/-- The body of the loop `while(!file.eof())` of `load`, once: read a cell name
with `>>`, the rest of the line with `getline`, and store the pair. -/
def loadStep (f : IStream) (s : spreadsheet) : IStream × spreadsheet :=
  let r₁ := readString f []
  let r₂ := getline r₁.1 []
  (r₂.1, s.update_cell r₁.2 r₂.2)

/-- The loop `while(!file.eof())` of `load` with a budget of iterations:
`none` when the budget is used up before `eof()` holds. -/
def loadLoop : Nat → IStream → spreadsheet → Option spreadsheet
  | 0, f, s => if f.eof then some s else none
  | fuel + 1, f, s =>
    if f.eof then some s
    else loadLoop fuel (loadStep f s).1 (loadStep f s).2

/-- The method `spreadsheet::load`, with a budget for its read loop; `junk` is the
value the uninitialised local `file_version` happens to hold. The result is the
returned flag and the object after the call, or `none` when the loop did not end
within the budget. -/
def spreadsheet.load (fuel : Nat) (junk : Int) (s : spreadsheet) (d : Disk) :
    Option (Bool × spreadsheet) :=
  match d.files s.filename with
  | none => some (false, s)
  | some content =>
    let r₁ := readString (IStream.opened content) []
    let r₂ := readInt r₁.1 junk
    let s₁ := { s with password := r₁.2, version := r₂.2 }
    match loadLoop fuel r₂.1 s₁ with
    | none => none
    | some s₂ => some (true, s₂)

/-- The method `spreadsheet::create`: sets the password, resets the version and
saves. The result is the returned flag, the object and the disk after the call. -/
def spreadsheet.create (s : spreadsheet) (password : Str) (d : Disk) :
    Bool × spreadsheet × Disk :=
  let s₁ := { s with password := password, version := 0 }
  (true, s₁.save d)

/-- The method `spreadsheet::authenticate`: `false` when the file cannot be
opened; otherwise `file >> file_password` is compared with the candidate. The
extraction `>> file_version` that follows goes into a local that is never read,
and the stream is closed right after, so it has no effect on the result. -/
def spreadsheet.authenticate (s : spreadsheet) (password : Str) (d : Disk) : Bool :=
  match d.files s.filename with
  | none => false
  | some content => decide (password = (readString (IStream.opened content) []).2)

/-- A disk without any file, on which every file can be created. -/
def emptyDisk : Disk := { files := fun _ => none, writable := fun _ => true }

/-- A sequence of applied edits: each one is an `update_cell` followed by an
`increment_version`. -/
def applyEdits : List (Str × Str) → spreadsheet → spreadsheet
  | [], s => s
  | e :: rest, s => applyEdits rest (s.update_cell e.1 e.2).increment_version

/-- The file text as the format description words it: the header
`password version`, then one line `name contents` per cell, the cells taken in
ascending order of their names. -/
def specFileText (password : Str) (version : Int) (cells : CellMap) : Str :=
  password ++ [' '] ++ decimal version ++ ['\n'] ++
    ((cells.insertionSort (fun a b => strLt b.1 a.1 = false)).map
      (fun e => e.1 ++ [' '] ++ e.2 ++ ['\n'])).flatten

/-! ## Worked example: the store of the specification's example -/

/-- The store after `create("secret")`, `update_cell("A1","42")`,
`increment_version()` on a new object for the file `F`, and the disk after the
`save()` that follows. -/
def exampleSaved : spreadsheet × Disk :=
  let c := (spreadsheet.new "F".toList).create "secret".toList emptyDisk
  let s := (c.2.1.update_cell "A1".toList "42".toList).increment_version
  s.save c.2.2

/-- The disk after `create("my secret")` on a new object for the file `F`. -/
def spacedPasswordDisk : Disk :=
  ((spreadsheet.new "F".toList).create "my secret".toList emptyDisk).2.2

/-- The store after `create("secret")`, `update_cell("B2","x y")`,
`update_cell("A1","42")` on a new object for the file `F`. -/
def twoCellStore : spreadsheet :=
  (((spreadsheet.new "F".toList).create "secret".toList emptyDisk).2.1.update_cell
    "B2".toList "x y".toList).update_cell "A1".toList "42".toList

/-! ## Sequences of calls on a store -/

/-- A call of one of the public methods of `spreadsheet`, with its arguments; a
`load` carries the budget of its read loop and the value its uninitialised local
holds. -/
inductive Call where
  | save
  | load (fuel : Nat) (junk : Int)
  | create (password : Str)
  | authenticate (password : Str)
  | update_cell (cell contents : Str)
  | get_cell_contents (cell : Str)
  | increment_version
  deriving DecidableEq

/-- The effect of one call on the object and the disk, the returned value being
dropped; `none` when a `load` does not return within its budget. -/
def Call.run : Call → spreadsheet × Disk → Option (spreadsheet × Disk)
  | .save, (s, d) => some (s.save d)
  | .load fuel junk, (s, d) => (s.load fuel junk d).map (fun r => (r.2, d))
  | .create password, (s, d) => some (s.create password d).2
  | .authenticate _, (s, d) => some (s, d)
  | .update_cell cell contents, (s, d) => some (s.update_cell cell contents, d)
  | .get_cell_contents cell, (s, d) => some ((s.get_cell_contents cell).2, d)
  | .increment_version, (s, d) => some (s.increment_version, d)

/-- The effect of a sequence of calls, first to last. -/
def runCalls : List Call → spreadsheet × Disk → Option (spreadsheet × Disk)
  | [], st => some st
  | c :: rest, st =>
    match c.run st with
    | none => none
    | some st₁ => runCalls rest st₁

/-- The calls that change the object without saving: `update_cell` and
`increment_version`. -/
def Call.isUnsavedMutation : Call → Bool
  | .update_cell _ _ => true
  | .increment_version => true
  | _ => false

/-- The calls that write the cell `name`: an `update_cell` of that name, and any
`load`. -/
def Call.writesCell (name : Str) : Call → Bool
  | .update_cell cell _ => decide (cell = name)
  | .load _ _ => true
  | _ => false

/-! ## The session (`Server/session.h`) -/

/-- The struct `undo_oper`: a cell name and the contents to restore. -/
structure undo_oper where
  cell : Str
  contents : Str
  deriving DecidableEq

/-- A `connection *`: the identity of a connection object. -/
abbrev connection := Nat

/-- The data members of `session`: the store, the list of connections in join
order, and the undo stack, its top at the end of the vector. -/
structure session where
  ss : spreadsheet
  connections : List connection
  undo_stack : List undo_oper

/-- Modelled from the spec: the type `Message` is not declared in the sources at
hand; the specification gives the inbound message as `EditCell{cell, contents}`. -/
structure Message where
  cell : Str
  contents : Str
  deriving DecidableEq

/-- Modelled from the spec: the outbound message `CellChanged{cell, contents,
version}` of the specification; no declaration of it is in the sources at hand. -/
structure CellChanged where
  cell : Str
  contents : Str
  version : Int
  deriving DecidableEq

/-- Modelled from the spec: the body of `session::handle_message` is missing (only
its declaration is in `session.h`). Following the specification's six steps: the
message is a cell edit; the current contents of the cell are read from the store
and recorded with the cell name at the end of the undo history, before the store
is changed; then `update_cell`, `increment_version` and `save` are called; then the
change, with the version counter after the increment, is sent to every connection
of the live set except the originator. The result is the session, the disk and the
messages delivered, in order. -/
def session.handle_message (σ : session) (msg : Message) (conn : connection) (d : Disk) :
    session × Disk × List (connection × CellChanged) :=
  let current := σ.ss.get_cell_contents msg.cell
  let stack := σ.undo_stack ++ [{ cell := msg.cell, contents := current.1 }]
  let s₁ := current.2.update_cell msg.cell msg.contents
  let s₂ := s₁.increment_version
  let saved := s₂.save d
  let delta : CellChanged :=
    { cell := msg.cell, contents := msg.contents, version := s₂.version }
  ({ ss := saved.1, connections := σ.connections, undo_stack := stack }, saved.2,
    (σ.connections.filter (fun c => decide (c ≠ conn))).map (fun c => (c, delta)))

/-- Modelled from the spec: no undo method is declared in `session.h`. Following
the specification of the undo history: the most recent entry is popped and its
contents are written back into the store with `update_cell`; the reversal is not
recorded again and the version counter is not touched; with an empty history
nothing happens. -/
def session.undo (σ : session) : session :=
  match σ.undo_stack.getLast? with
  | none => σ
  | some u =>
    { ss := σ.ss.update_cell u.cell u.contents,
      connections := σ.connections,
      undo_stack := σ.undo_stack.dropLast }

/-- The number of messages of a delivery list that went to a given connection. -/
def deliveredTo (out : List (connection × CellChanged)) (c : connection) : Nat :=
  (out.filter (fun m => decide (m.1 = c))).length

/-! ## Theorems -/

/-! ### The stream primitives -/

theorem skipws_head_not_space : ∀ (l : Str) (c : Char) (cs : Str),
    skipws l = c :: cs → isspace c = false := by
  intro l
  induction l with
  | nil => intro c cs h; simp [skipws] at h
  | cons a as ih =>
    intro c cs h
    by_cases ha : isspace a = true
    · simp only [skipws, ha, if_true] at h
      exact ih c cs h
    · simp only [skipws, ha] at h
      simp only [Bool.false_eq_true, if_false, List.cons.injEq] at h
      rw [← h.1]; simpa using ha

theorem skipws_length_le : ∀ l : Str, (skipws l).length ≤ l.length := by
  intro l
  induction l with
  | nil => simp [skipws]
  | cons a as ih =>
    by_cases ha : isspace a = true
    · simp only [skipws, ha, if_true, List.length_cons]; omega
    · simp [skipws, ha]

theorem takeToken_rest_length_le : ∀ l : Str, (takeToken l).2.length ≤ l.length := by
  intro l
  induction l with
  | nil => simp [takeToken]
  | cons a as ih =>
    by_cases ha : isspace a = true
    · simp [takeToken, ha]
    · simp only [takeToken, ha, Bool.false_eq_true, if_false, List.length_cons]; omega

theorem takeLine_rest_length_lt : ∀ l : Str, (takeLine l).2.2 = true →
    (takeLine l).2.1.length < l.length := by
  intro l
  induction l with
  | nil => simp [takeLine]
  | cons a as ih =>
    by_cases ha : a = '\n'
    · simp [takeLine, ha]
    · simp only [takeLine, ha, if_false, List.length_cons]
      intro h; have := ih h; omega

theorem takeToken_head_not_space (c : Char) (cs : Str) (hc : isspace c = false) :
    (takeToken (c :: cs)).1.isEmpty = false := by
  simp [takeToken, hc]

/-- One pass through the loop body on a good stream either sets `eofbit` or leaves
the stream good with strictly fewer unread characters. -/
theorem loadStep_progress (f : IStream) (s : spreadsheet)
    (he : f.eofbit = false) (hf : f.failbit = false) :
    (loadStep f s).1.eofbit = true ∨
      ((loadStep f s).1.failbit = false ∧ (loadStep f s).1.buf.length < f.buf.length) := by
  cases f with
  | mk buf e fl =>
    simp only at he hf
    subst he hf
    simp only [loadStep, readString, sentry, IStream.good, Bool.not_false, Bool.and_self,
      Bool.not_true, Bool.false_eq_true, if_false, if_true]
    cases hsk : skipws buf with
    | nil => simp [getline, sentry, IStream.good]
    | cons c cs =>
      have hc := skipws_head_not_space buf c cs hsk
      have hlen := skipws_length_le buf
      rw [hsk] at hlen
      have htok := takeToken_head_not_space c cs hc
      have hrest := takeToken_rest_length_le (c :: cs)
      simp only [htok, Bool.false_or]
      cases hr : (takeToken (c :: cs)).2 with
      | nil => simp [getline, sentry, IStream.good]
      | cons d ds =>
        rw [hr] at hrest
        simp only [getline, sentry, IStream.good, List.isEmpty_cons, Bool.not_false,
          Bool.and_self, Bool.not_true, Bool.false_eq_true, if_false, Bool.false_or]
        cases hfound : (takeLine (d :: ds)).2.2 with
        | false => left; simp
        | true =>
          right
          have := takeLine_rest_length_lt (d :: ds) hfound
          simp only [Bool.not_true, Bool.and_false, true_and]
          simp only [List.length_cons] at this hlen hrest ⊢
          omega

/-! ### The read loop -/

theorem loadStep_stuck (f : IStream) (s : spreadsheet)
    (he : f.eofbit = false) (hf : f.failbit = true) : (loadStep f s).1 = f := by
  cases f with
  | mk buf e fl =>
    simp only at he hf
    subst he hf
    simp [loadStep, readString, getline, sentry, IStream.good]

theorem loadLoop_stuck (fuel : Nat) : ∀ (f : IStream) (s : spreadsheet),
    f.eofbit = false → f.failbit = true → loadLoop fuel f s = none := by
  induction fuel with
  | zero => intro f s he _; simp [loadLoop, IStream.eof, he]
  | succ n ih =>
    intro f s he hf
    have hstep := loadStep_stuck f s he hf
    simp only [loadLoop, IStream.eof, he, Bool.false_eq_true, if_false]
    have := ih (loadStep f s).1 (loadStep f s).2 (by rw [hstep]; exact he) (by rw [hstep]; exact hf)
    exact this

/-- C6: on the file written by `create("my secret")` the read loop of `load` never
reaches end-of-input: whatever the budget of iterations, `load` has not returned. -/
theorem load_spins_on_spaced_password (fuel : Nat) (junk : Int) :
    (spreadsheet.new "F".toList).load fuel junk spacedPasswordDisk = none := by
  have hfile : spacedPasswordDisk.files (spreadsheet.new "F".toList).filename
      = some "my secret 0\n".toList := by decide
  have hhdr : readInt (readString (IStream.opened "my secret 0\n".toList) []).1 junk
      = ({ buf := "secret 0\n".toList, eofbit := false, failbit := true }, 0) := by rfl
  simp only [spreadsheet.load, hfile, hhdr]
  rw [loadLoop_stuck fuel _ _ rfl rfl]

/-- C1: in the specification's example the reloaded store does not give back the saved
contents of `A1`: saved `42`, reloaded with the separating space in front. -/
theorem save_load_example_alters_contents :
    (exampleSaved.2.files "F".toList = some "secret 1\nA1 42\n".toList) ∧
    (exampleSaved.1.get_cell_contents "A1".toList).1 = "42".toList ∧
    ((spreadsheet.new "F".toList).load 3 0 exampleSaved.2).map
      (fun r => (r.1, (r.2.get_cell_contents "A1".toList).1)) = some (true, " 42".toList) := by
  decide

theorem loadStep_fields (f : IStream) (s : spreadsheet) :
    (loadStep f s).2.password = s.password ∧ (loadStep f s).2.version = s.version ∧
    (loadStep f s).2.loaded = s.loaded ∧ (loadStep f s).2.filename = s.filename := by
  simp [loadStep, spreadsheet.update_cell]

/-- The read loop ends on every stream that is good or at end-of-input, within as
many iterations as there are unread characters plus one, and it touches only the
cell map. -/
theorem loadLoop_returns (fuel : Nat) : ∀ (f : IStream) (s : spreadsheet),
    (f.eofbit = true ∨ f.failbit = false) → f.buf.length < fuel →
    ∃ s', loadLoop fuel f s = some s' ∧ s'.password = s.password ∧
      s'.version = s.version ∧ s'.loaded = s.loaded ∧ s'.filename = s.filename := by
  induction fuel with
  | zero => intro f s _ h; omega
  | succ n ih =>
    intro f s hst hlen
    cases he : f.eofbit with
    | true => exact ⟨s, by simp [loadLoop, IStream.eof, he], rfl, rfl, rfl, rfl⟩
    | false =>
      have hf : f.failbit = false := by
        rcases hst with h | h
        · rw [he] at h; cases h
        · exact h
      simp only [loadLoop, IStream.eof, he, Bool.false_eq_true, if_false]
      obtain ⟨hp, hv, hl, hn⟩ := loadStep_fields f s
      rcases loadStep_progress f s he hf with h | ⟨h₁, h₂⟩
      · cases n with
        | zero =>
          exact ⟨(loadStep f s).2, by simp [loadLoop, IStream.eof, h], hp, hv, hl, hn⟩
        | succ m =>
          exact ⟨(loadStep f s).2, by simp [loadLoop, IStream.eof, h], hp, hv, hl, hn⟩
      · obtain ⟨s', hs', hp', hv', hl', hn'⟩ :=
          ih (loadStep f s).1 (loadStep f s).2 (Or.inr h₁) (by omega)
        exact ⟨s', hs', hp'.trans hp, hv'.trans hv, hl'.trans hl, hn'.trans hn⟩

/-! ### The header -/

theorem takeToken_append (p : Str) (hp : ∀ c ∈ p, isspace c = false)
    (c : Char) (r : Str) (hc : isspace c = true) :
    takeToken (p ++ c :: r) = (p, c :: r) := by
  induction p with
  | nil => simp [takeToken, hc]
  | cons a as ih =>
    have ha : isspace a = false := hp a (List.mem_cons_self a as)
    have ih' := ih (fun x hx => hp x (List.mem_cons_of_mem a hx))
    simp [takeToken, ha, ih']

/-- Reading a token: a non-empty whitespace-free string followed by a whitespace
character is extracted whole, the stream stays good and stops at that character. -/
theorem readString_token (p : Str) (hne : p ≠ []) (hp : ∀ c ∈ p, isspace c = false)
    (c : Char) (r : Str) (hc : isspace c = true) (old : Str) :
    readString (IStream.opened (p ++ c :: r)) old
      = ({ buf := c :: r, eofbit := false, failbit := false }, p) := by
  cases p with
  | nil => exact absurd rfl hne
  | cons a as =>
    have ha : isspace a = false := hp a (List.mem_cons_self a as)
    have htok := takeToken_append (a :: as) hp c r hc
    simp only [List.cons_append] at htok
    simp [readString, sentry, IStream.opened, IStream.good, skipws, ha, htok]

theorem digitChar_isdigit (d : Nat) (hd : d < 10) :
    isdigit (Nat.digitChar d) = true ∧ digitVal (Nat.digitChar d) = d := by
  interval_cases d <;> decide

theorem toDigitsCore_isdigit (fuel : Nat) : ∀ (n : Nat) (acc : Str),
    (∀ c ∈ acc, isdigit c = true) → ∀ c ∈ Nat.toDigitsCore 10 fuel n acc, isdigit c = true := by
  induction fuel with
  | zero => intro n acc h; simpa [Nat.toDigitsCore] using h
  | succ k ih =>
    intro n acc h
    have hd := (digitChar_isdigit (n % 10) (Nat.mod_lt _ (by decide))).1
    have hacc : ∀ c ∈ Nat.digitChar (n % 10) :: acc, isdigit c = true := by
      intro c hc
      rcases List.mem_cons.1 hc with h₁ | h₁
      · rw [h₁]; exact hd
      · exact h c h₁
    simp only [Nat.toDigitsCore]
    split
    · exact hacc
    · exact ih (n / 10) _ hacc

theorem toDigitsCore_ne_nil (fuel : Nat) : ∀ (n : Nat) (acc : Str),
    Nat.toDigitsCore 10 (fuel + 1) n acc ≠ [] := by
  induction fuel with
  | zero => intro n acc; simp [Nat.toDigitsCore]
  | succ k ih =>
    intro n acc
    rw [Nat.toDigitsCore]
    split
    · simp
    · exact ih _ _

theorem digitsValue_toDigitsCore (fuel : Nat) : ∀ (n : Nat) (acc : Str), n < fuel →
    digitsValue (Nat.toDigitsCore 10 fuel n acc)
      = acc.foldl (fun x c => x * 10 + digitVal c) n := by
  induction fuel with
  | zero => intro n acc h; omega
  | succ k ih =>
    intro n acc h
    have hd := (digitChar_isdigit (n % 10) (Nat.mod_lt _ (by decide))).2
    rw [Nat.toDigitsCore]
    split
    · rename_i h0
      have hn : n % 10 = n := by omega
      simp only [digitsValue, List.foldl_cons, Nat.zero_mul, Nat.zero_add]
      rw [hd, hn]
    · rename_i h0
      rw [ih (n / 10) _ (by omega)]
      simp only [List.foldl_cons, hd]
      congr 1
      omega

theorem decimalNat_isdigit (n : Nat) : ∀ c ∈ decimalNat n, isdigit c = true :=
  toDigitsCore_isdigit (n + 1) n [] (by simp)

theorem decimalNat_ne_nil (n : Nat) : decimalNat n ≠ [] :=
  toDigitsCore_ne_nil n n []

theorem digitsValue_decimalNat (n : Nat) : digitsValue (decimalNat n) = n := by
  simpa [decimalNat, Nat.toDigits] using digitsValue_toDigitsCore (n + 1) n [] (by omega)

theorem takeDigits_append (ds : Str) (hds : ∀ c ∈ ds, isdigit c = true)
    (c : Char) (r : Str) (hc : isdigit c = false) :
    takeDigits (ds ++ c :: r) = (ds, c :: r) := by
  induction ds with
  | nil => simp [takeDigits, hc]
  | cons a as ih =>
    have ha : isdigit a = true := hds a (List.mem_cons_self a as)
    have ih' := ih (fun x hx => hds x (List.mem_cons_of_mem a hx))
    simp [takeDigits, ha, ih']

theorem isdigit_not_space (c : Char) (h : isdigit c = true) :
    isspace c = false ∧ c ≠ '-' ∧ c ≠ '+' := by
  refine ⟨?_, ?_, ?_⟩
  · simp only [isdigit, Bool.and_eq_true, decide_eq_true_eq] at h
    simp only [isspace, Bool.or_eq_false_iff, decide_eq_false_iff_not, Bool.and_eq_false_iff]
    omega
  · intro hc; rw [hc] at h; revert h; decide
  · intro hc; rw [hc] at h; revert h; decide

theorem sentry_skip_space (c : Char) (cs : Str) (hc : isspace c = false) :
    sentry { buf := ' ' :: c :: cs, eofbit := false, failbit := false } true
      = (true, { buf := c :: cs, eofbit := false, failbit := false }) := by
  have hs1 : isspace ' ' = true := by decide
  simp [sentry, IStream.good, skipws, hs1, hc]

/-- Reading back a written `int`: after a space, the characters `operator<<`
wrote for an `int` value, followed by a newline, are extracted as that value; the
stream stays good and stops at the newline. -/
theorem readInt_decimal (v : Int) (hv : IsInt32 v) (r : Str) (junk : Int) :
    readInt { buf := ' ' :: (decimal v ++ '\n' :: r), eofbit := false, failbit := false } junk
      = ({ buf := '\n' :: r, eofbit := false, failbit := false }, v) := by
  obtain ⟨hlo, hhi⟩ := hv
  simp only [INT_MIN, INT_MAX] at hlo hhi
  have hnl : isdigit '\n' = false := by decide
  have htd := takeDigits_append (decimalNat v.natAbs) (decimalNat_isdigit _) '\n' r hnl
  have hval := digitsValue_decimalNat v.natAbs
  cases hdec : decimalNat v.natAbs with
  | nil => exact absurd hdec (decimalNat_ne_nil _)
  | cons a as =>
    have ha : isdigit a = true :=
      decimalNat_isdigit v.natAbs a (by rw [hdec]; exact List.mem_cons_self a as)
    obtain ⟨hsp, hminus, hplus⟩ := isdigit_not_space a ha
    rw [hdec] at htd hval
    simp only [List.cons_append] at htd
    by_cases hneg : v < 0
    · have hsen := sentry_skip_space '-' (a :: (as ++ '\n' :: r)) (by decide)
      have hsign : takeSign ('-' :: a :: (as ++ '\n' :: r)) = (true, a :: (as ++ '\n' :: r)) := by
        simp [takeSign]
      simp only [decimal, hneg, if_true, hdec, List.cons_append]
      simp only [readInt, hsen, hsign, htd, List.isEmpty_cons, Bool.false_eq_true, if_false,
        if_true, hval, Bool.false_or, INT_MIN, INT_MAX]
      rw [if_neg (by omega), if_neg (by omega)]
      congr 1
      omega
    · have hsen := sentry_skip_space a (as ++ '\n' :: r) hsp
      have hsign : takeSign (a :: (as ++ '\n' :: r)) = (false, a :: (as ++ '\n' :: r)) := by
        simp [takeSign, hminus, hplus]
      simp only [decimal, hneg, if_false, hdec, List.cons_append]
      simp only [readInt, hsen, hsign, htd, List.isEmpty_cons, Bool.false_eq_true, if_false,
        hval, Bool.false_or, INT_MIN, INT_MAX]
      rw [if_neg (by omega), if_neg (by omega)]
      congr 1
      omega

/-! ### The key order and the cell map -/

theorem char_eq_of_toNat_eq (a b : Char) (h : a.toNat = b.toNat) : a = b := by
  rw [← Char.ofNat_toNat a, ← Char.ofNat_toNat b, h]

theorem strLt_asymm : ∀ a b : Str, strLt a b = true → strLt b a = false := by
  intro a
  induction a with
  | nil => intro b; cases b <;> simp [strLt]
  | cons x xs ih =>
    intro b
    cases b with
    | nil => simp [strLt]
    | cons y ys =>
      simp only [strLt]
      intro h
      split_ifs at h ⊢
      all_goals first | omega | rfl | exact ih ys h

theorem strLt_trans : ∀ a b c : Str, strLt a b = true → strLt b c = true → strLt a c = true := by
  intro a
  induction a with
  | nil => intro b c; cases b <;> cases c <;> simp [strLt]
  | cons x xs ih =>
    intro b c
    cases b with
    | nil => simp [strLt]
    | cons y ys =>
      cases c with
      | nil => simp [strLt]
      | cons z zs =>
        simp only [strLt]
        intro h₁ h₂
        split_ifs at h₁ h₂ ⊢
        all_goals first | omega | rfl | exact ih ys zs h₁ h₂

theorem strLt_total : ∀ a b : Str, strLt a b = false → a ≠ b → strLt b a = true := by
  intro a
  induction a with
  | nil => intro b; cases b <;> simp [strLt]
  | cons x xs ih =>
    intro b
    cases b with
    | nil => simp [strLt]
    | cons y ys =>
      simp only [strLt]
      intro h hne
      split_ifs at h ⊢
      all_goals first | omega | rfl | skip
      have hxy : x = y := char_eq_of_toNat_eq x y (by omega)
      exact ih ys h (fun hc => hne (by rw [hxy, hc]))

theorem keysAscending_tail (e : Str × Str) (m : CellMap)
    (h : keysAscending (e :: m) = true) : keysAscending m = true := by
  cases m with
  | nil => rfl
  | cons e₂ rest =>
    obtain ⟨k₁, v₁⟩ := e
    obtain ⟨k₂, v₂⟩ := e₂
    simp only [keysAscending, Bool.and_eq_true] at h
    exact h.2

theorem keysAscending_head_lt (e : Str × Str) : ∀ (m : CellMap),
    keysAscending (e :: m) = true → ∀ x ∈ m, strLt e.1 x.1 = true := by
  intro m
  induction m generalizing e with
  | nil => intro _ x hx; cases hx
  | cons e₂ rest ih =>
    obtain ⟨k₁, v₁⟩ := e
    obtain ⟨k₂, v₂⟩ := e₂
    intro h x hx
    simp only [keysAscending, Bool.and_eq_true] at h
    rcases List.mem_cons.1 hx with h₁ | h₁
    · rw [h₁]; exact h.1
    · exact strLt_trans k₁ k₂ x.1 h.1 (ih (k₂, v₂) h.2 x h₁)

/-- A map with strictly ascending keys is its own sorted arrangement. -/
theorem insertionSort_of_keysAscending : ∀ m : CellMap, keysAscending m = true →
    m.insertionSort (fun a b => strLt b.1 a.1 = false) = m := by
  intro m hm
  apply List.Sorted.insertionSort_eq
  induction m with
  | nil => exact List.sorted_nil
  | cons e rest ih =>
    refine List.sorted_cons.2 ⟨?_, ih (keysAscending_tail e rest hm)⟩
    intro x hx
    exact strLt_asymm e.1 x.1 (keysAscending_head_lt e rest hm x hx)

/-- The assignment `m[key] = value` keeps the keys strictly ascending. -/
theorem keysAscending_mapSet (key value : Str) : ∀ m : CellMap,
    keysAscending m = true → keysAscending (mapSet m key value) = true := by
  intro m
  induction m with
  | nil => intro _; rfl
  | cons e rest ih =>
    obtain ⟨k, v⟩ := e
    intro h
    simp only [mapSet]
    split_ifs with h₁ h₂
    · cases rest with
      | nil => rfl
      | cons e₂ rest₂ =>
        obtain ⟨k₂, v₂⟩ := e₂
        simpa [keysAscending] using h
    · simp only [keysAscending, h₂, Bool.true_and]
      exact h
    · have hlt : strLt k key = true :=
        strLt_total key k (by simpa using h₂) (fun hc => h₁ hc.symm)
      have ih' := ih (keysAscending_tail _ _ h)
      cases rest with
      | nil => simp [mapSet, keysAscending, hlt]
      | cons e₂ rest₂ =>
        obtain ⟨k₂, v₂⟩ := e₂
        simp only [keysAscending, Bool.and_eq_true] at h
        simp only [mapSet] at ih' ⊢
        split_ifs at ih' ⊢ with h₃ h₄
        · simp only [keysAscending, Bool.and_eq_true]; exact ⟨h.1, ih'⟩
        · simp only [keysAscending, Bool.and_eq_true] at ih' ⊢; exact ⟨hlt, ih'⟩
        · simp only [keysAscending, Bool.and_eq_true]
          cases hms : mapSet rest₂ key value with
          | nil => exact ⟨h.1, rfl⟩
          | cons e₃ rest₃ =>
            rw [hms] at ih'
            exact ⟨h.1, ih'⟩

theorem writeCells_eq_flatten (m : CellMap) :
    writeCells m = (m.map (fun e => e.1 ++ [' '] ++ e.2 ++ ['\n'])).flatten := by
  induction m with
  | nil => rfl
  | cons e rest ih => simp [writeCells, cellLine, ih]

/-! ### Saving and reading back the header -/

theorem fileText_shape (s : spreadsheet) :
    s.fileText = s.password ++ ' ' :: (decimal s.version ++ '\n' :: writeCells s.cell_map) := by
  simp [spreadsheet.fileText]

theorem save_files (s : spreadsheet) (d : Disk) (hw : d.writable s.filename = true) :
    (s.save d).2.files s.filename = some s.fileText := by
  simp [spreadsheet.save, hw, Disk.write]

/-- C10: a store with a non-empty whitespace-free password and an `int` version,
saved to a writable file, is read back by `load` on a new object for the same
file name: `load` returns `true` (within any budget above the size of the cell
lines) and the new object holds the saved password and version. -/
theorem header_round_trip (s : spreadsheet) (d : Disk) (fuel : Nat) (junk : Int)
    (hw : d.writable s.filename = true)
    (hne : s.password ≠ []) (hp : ∀ c ∈ s.password, isspace c = false)
    (hv : IsInt32 s.version) (hfuel : (writeCells s.cell_map).length + 1 < fuel) :
    ((spreadsheet.new s.filename).load fuel junk (s.save d).2).map
        (fun r => (r.1, r.2.password, r.2.version))
      = some (true, s.password, s.version) := by
  have hfile : (s.save d).2.files (spreadsheet.new s.filename).filename = some s.fileText :=
    save_files s d hw
  have hs1 : isspace ' ' = true := by decide
  have htok := readString_token s.password hne hp ' '
    (decimal s.version ++ '\n' :: writeCells s.cell_map) hs1 []
  have hint := readInt_decimal s.version hv (writeCells s.cell_map) junk
  obtain ⟨s', hs', hpw, hver, _, _⟩ := loadLoop_returns fuel
    { buf := '\n' :: writeCells s.cell_map, eofbit := false, failbit := false }
    { spreadsheet.new s.filename with password := s.password, version := s.version }
    (Or.inr rfl) (by simpa using hfuel)
  simp only [spreadsheet.load, hfile, fileText_shape, htok, hint, hs', Option.map_some']
  rw [hpw, hver]

/-- C10, at the example's store: password `secret`, version 1, one cell. -/
theorem header_round_trip_witness :
    exampleSaved.1.password = "secret".toList ∧ exampleSaved.1.version = 1 ∧
    ((spreadsheet.new exampleSaved.1.filename).load 9 0 (exampleSaved.1.save emptyDisk).2).map
        (fun r => (r.1, r.2.password, r.2.version))
      = some (true, exampleSaved.1.password, exampleSaved.1.version) :=
  ⟨by decide, by decide,
    header_round_trip exampleSaved.1 emptyDisk 9 0 (by decide) (by decide) (by decide)
      (by decide) (by decide)⟩

/-! ### Authentication -/

/-- C2, as stated, fails for a password with a space and for the empty password:
after `create("my secret")` the candidate `my` is accepted and the password itself
is refused; after `create("")` the empty candidate is refused and `0` is accepted. -/
theorem authenticate_compares_first_word :
    ((spreadsheet.new "F".toList).create "my secret".toList emptyDisk).2.1.authenticate
        "my".toList spacedPasswordDisk = true ∧
    "my".toList ≠ "my secret".toList ∧
    ((spreadsheet.new "F".toList).create "my secret".toList emptyDisk).2.1.authenticate
        "my secret".toList spacedPasswordDisk = false ∧
    ((spreadsheet.new "F".toList).create [] emptyDisk).2.1.authenticate
        [] ((spreadsheet.new "F".toList).create [] emptyDisk).2.2 = false ∧
    ((spreadsheet.new "F".toList).create [] emptyDisk).2.1.authenticate
        "0".toList ((spreadsheet.new "F".toList).create [] emptyDisk).2.2 = true := by
  decide

/-- C2, amended: for a non-empty password `p` without whitespace, once `create(p)` has
written the file, `authenticate(q)` returns `true` exactly when `q = p`. -/
theorem authenticate_after_create (s : spreadsheet) (d : Disk) (p q : Str)
    (hw : d.writable s.filename = true)
    (hne : p ≠ []) (hp : ∀ c ∈ p, isspace c = false) :
    (s.create p d).2.1.authenticate q (s.create p d).2.2 = true ↔ q = p := by
  have hs1 : isspace ' ' = true := by decide
  have htok := readString_token p hne hp ' ' (decimal 0 ++ '\n' :: writeCells s.cell_map) hs1 []
  have hfile : (s.create p d).2.2.files (s.create p d).2.1.filename
      = some (p ++ ' ' :: (decimal 0 ++ '\n' :: writeCells s.cell_map)) := by
    simp [spreadsheet.create, spreadsheet.save, hw, Disk.write, spreadsheet.fileText]
  simp only [spreadsheet.authenticate, hfile, htok, decide_eq_true_eq]

/-- C2, amended, at the password `secret` with the candidates `secret` and `guess`. -/
theorem authenticate_after_create_witness :
    (((spreadsheet.new "F".toList).create "secret".toList emptyDisk).2.1.authenticate
        "secret".toList ((spreadsheet.new "F".toList).create "secret".toList emptyDisk).2.2 = true
      ↔ "secret".toList = "secret".toList) ∧
    (((spreadsheet.new "F".toList).create "secret".toList emptyDisk).2.1.authenticate
        "guess".toList ((spreadsheet.new "F".toList).create "secret".toList emptyDisk).2.2 = true
      ↔ "guess".toList = "secret".toList) :=
  ⟨authenticate_after_create (spreadsheet.new "F".toList) emptyDisk "secret".toList
      "secret".toList (by decide) (by decide) (by decide),
   authenticate_after_create (spreadsheet.new "F".toList) emptyDisk "secret".toList
      "guess".toList (by decide) (by decide) (by decide)⟩

/-! ### The loaded flag -/

/-- C3: on the example's file `load` returns `true` and reads version 1 from the
header, yet afterwards `is_loaded()` is `false` and `get_version()` is -1. -/
theorem load_leaves_store_unloaded :
    ((spreadsheet.new "F".toList).load 3 0 exampleSaved.2).map
        (fun r => (r.1, r.2.version, r.2.is_loaded, r.2.get_version))
      = some (true, 1, false, -1) := by
  decide

theorem applyEdits_loaded : ∀ (edits : List (Str × Str)) (s : spreadsheet),
    (applyEdits edits s).loaded = s.loaded := by
  intro edits
  induction edits with
  | nil => intro s; rfl
  | cons e rest ih =>
    intro s
    rw [applyEdits, ih]
    rfl

/-- C4: on a new object, after `create(p)` and any number of edits (an `update_cell`
followed by an `increment_version` each), `get_version()` returns -1 and not the
number of edits. -/
theorem get_version_after_edits (filename p : Str) (d : Disk) (edits : List (Str × Str)) :
    (applyEdits edits ((spreadsheet.new filename).create p d).2.1).get_version = -1 := by
  have h := applyEdits_loaded edits ((spreadsheet.new filename).create p d).2.1
  have h0 : ((spreadsheet.new filename).create p d).2.1.loaded = false := by
    simp only [spreadsheet.create, spreadsheet.save, spreadsheet.new]
    split_ifs <;> rfl
  simp [spreadsheet.get_version, spreadsheet.is_loaded, h, h0]

/-! ### Malformed files -/

/-- C5, as stated, fails: on an existing empty file, and on a file holding a password
without a version, `load` returns `true`. -/
theorem load_accepts_malformed_files :
    ((spreadsheet.new "F".toList).load 0 0 (emptyDisk.write "F".toList [])).map
        (fun r => r.1) = some true ∧
    ((spreadsheet.new "F".toList).load 0 0 (emptyDisk.write "F".toList "secret\n".toList)).map
        (fun r => r.1) = some true := by
  decide

/-- C5, amended: `load` returns `false` exactly when the file cannot be opened, and
then leaves the object as it was; on an existing empty file it returns `true`, with
an empty password and no cell read. -/
theorem load_false_iff_unopenable (fuel : Nat) (junk : Int) (s : spreadsheet) (d : Disk) :
    ((∃ s', s.load fuel junk d = some (false, s')) ↔ d.files s.filename = none) ∧
    (d.files s.filename = none → s.load fuel junk d = some (false, s)) ∧
    (d.files s.filename = some [] →
      s.load fuel junk d = some (true, { s with password := [], version := junk })) := by
  refine ⟨⟨?_, ?_⟩, ?_, ?_⟩
  · rintro ⟨s', hs'⟩
    cases hf : d.files s.filename with
    | none => rfl
    | some content =>
      simp only [spreadsheet.load, hf] at hs'
      split at hs' <;> simp at hs'
  · intro hf
    exact ⟨s, by simp [spreadsheet.load, hf]⟩
  · intro hf
    simp [spreadsheet.load, hf]
  · intro hf
    have h1 : readString (IStream.opened []) [] = ({ buf := [], eofbit := true, failbit := true }, []) := by
      rfl
    have h2 : readInt { buf := [], eofbit := true, failbit := true } junk
        = ({ buf := [], eofbit := true, failbit := true }, junk) := by
      rfl
    simp only [spreadsheet.load, hf, h1, h2]
    cases fuel <;> simp [loadLoop, IStream.eof]

/-- C5, amended, on a disk without the file and on a disk with an empty file. -/
theorem load_false_iff_unopenable_witness :
    (spreadsheet.new "F".toList).load 0 0 emptyDisk = some (false, spreadsheet.new "F".toList) ∧
    (spreadsheet.new "F".toList).load 0 0 (emptyDisk.write "F".toList [])
      = some (true, { spreadsheet.new "F".toList with password := [], version := 0 }) :=
  ⟨(load_false_iff_unopenable 0 0 (spreadsheet.new "F".toList) emptyDisk).2.1 (by decide),
   (load_false_iff_unopenable 0 0 (spreadsheet.new "F".toList)
      (emptyDisk.write "F".toList [])).2.2 (by decide)⟩

/-! ### `create` and `save` -/

/-- C7, as stated, fails on a store that already holds a cell: after
`update_cell("A1","42")`, `create("secret")` leaves the cell in the map and writes
its line to the file after the header. -/
theorem create_keeps_cells :
    (((spreadsheet.new "F".toList).update_cell "A1".toList "42".toList).create
        "secret".toList emptyDisk).2.1.cell_map = [("A1".toList, "42".toList)] ∧
    (((spreadsheet.new "F".toList).update_cell "A1".toList "42".toList).create
        "secret".toList emptyDisk).2.2.files "F".toList = some "secret 0\nA1 42\n".toList := by
  decide

/-- C7, amended: `create(p)` returns `true`, sets the version to 0 and the password to
`p`, and leaves the cell map (and the loaded flag and file name) as they were; it
then does what `save()` does for that state: on a writable file the content is the
header line `p 0` followed by one line per cell of the map, so the header line alone
when the map was empty. -/
theorem create_postcondition (s : spreadsheet) (p : Str) (d : Disk) :
    (s.create p d).1 = true ∧
    (s.create p d).2.1 = { s with password := p, version := 0 } ∧
    (s.create p d).2.1.cell_map = s.cell_map ∧
    (s.create p d).2.2 = ((s.create p d).2.1.save d).2 ∧
    (d.writable s.filename = true →
      (s.create p d).2.2.files s.filename = some (p ++ " 0\n".toList ++ writeCells s.cell_map)) ∧
    (d.writable s.filename = true → s.cell_map = [] →
      (s.create p d).2.2.files s.filename = some (p ++ " 0\n".toList)) := by
  have hdec : decimal 0 = ['0'] := by decide
  have hstore : (s.create p d).2.1 = { s with password := p, version := 0 } := by
    simp only [spreadsheet.create, spreadsheet.save]
    split_ifs <;> rfl
  have hfile : d.writable s.filename = true →
      (s.create p d).2.2.files s.filename = some (p ++ " 0\n".toList ++ writeCells s.cell_map) := by
    intro hw
    simp [spreadsheet.create, spreadsheet.save, hw, Disk.write, spreadsheet.fileText, hdec]
  refine ⟨rfl, hstore, by rw [hstore], ?_, hfile, ?_⟩
  · rw [hstore]
    simp only [spreadsheet.create]
  · intro hw hm
    rw [hfile hw, hm]
    simp [writeCells]

/-- C7, amended, on a new object and on an object holding one cell. -/
theorem create_postcondition_witness :
    ((spreadsheet.new "F".toList).create "secret".toList emptyDisk).2.2.files "F".toList
      = some ("secret".toList ++ " 0\n".toList) ∧
    (((spreadsheet.new "F".toList).update_cell "A1".toList "42".toList).create
        "secret".toList emptyDisk).2.2.files "F".toList
      = some ("secret".toList ++ " 0\n".toList ++ writeCells [("A1".toList, "42".toList)]) :=
  ⟨(create_postcondition (spreadsheet.new "F".toList) "secret".toList emptyDisk).2.2.2.2.2
      (by decide) (by decide),
   (create_postcondition ((spreadsheet.new "F".toList).update_cell "A1".toList "42".toList)
      "secret".toList emptyDisk).2.2.2.2.1 (by decide)⟩

/-- C8: on a writable file, `save()` leaves in the file exactly the header
`password version` and then one line `name contents` per cell, cells in ascending
order of their names, whatever the file held before; no member of the object
changes. Other files are not touched. -/
theorem save_writes_format (s : spreadsheet) (d : Disk)
    (hw : d.writable s.filename = true) (hm : keysAscending s.cell_map = true) :
    (s.save d).2.files s.filename = some (specFileText s.password s.version s.cell_map) ∧
    (∀ d' : Disk, d'.writable s.filename = true →
      (s.save d').2.files s.filename = (s.save d).2.files s.filename) ∧
    (s.save d).1 = s ∧
    (∀ n, n ≠ s.filename → (s.save d).2.files n = d.files n) := by
  have htext : s.fileText = specFileText s.password s.version s.cell_map := by
    simp [spreadsheet.fileText, specFileText, insertionSort_of_keysAscending s.cell_map hm,
      writeCells_eq_flatten]
  refine ⟨by rw [save_files s d hw, htext], ?_, ?_, ?_⟩
  · intro d' hw'
    rw [save_files s d hw, save_files s d' hw']
  · simp [spreadsheet.save, hw]
  · intro n hn
    simp [spreadsheet.save, hw, Disk.write, hn]

/-- C8, at a store with two cells entered in descending order of their names,
saved over an existing file. -/
theorem save_writes_format_witness :
    emptyDisk.writable twoCellStore.filename = true ∧
    keysAscending twoCellStore.cell_map = true ∧
    specFileText twoCellStore.password twoCellStore.version twoCellStore.cell_map
      = "secret 0\nA1 42\nB2 x y\n".toList ∧
    (twoCellStore.save (emptyDisk.write "F".toList "old".toList)).2.files twoCellStore.filename
      = some (specFileText twoCellStore.password twoCellStore.version twoCellStore.cell_map) :=
  ⟨by decide, by decide, by decide,
    (save_writes_format twoCellStore (emptyDisk.write "F".toList "old".toList)
      (by decide) (by decide)).1⟩

/-! ### Cell lines -/

/-- C9: the line `A1 hello world` after a well-formed header is decoded into the
name `A1` and the contents ` hello world`: the space that separates name and
contents stays in front of the contents. -/
theorem load_keeps_separator_in_contents :
    ((spreadsheet.new "F".toList).load 3 0
        (emptyDisk.write "F".toList "secret 1\nA1 hello world\n".toList)).map
        (fun r => (r.1, (r.2.get_cell_contents "A1".toList).1))
      = some (true, " hello world".toList) ∧
    " hello world".toList ≠ "hello world".toList := by
  decide


/-! ### Reading and writing cells -/

theorem mapFind_mapSet_self (key value : Str) : ∀ m : CellMap,
    mapFind (mapSet m key value) key = some value := by
  intro m
  induction m with
  | nil => simp [mapSet, mapFind]
  | cons e rest ih =>
    obtain ⟨k, v⟩ := e
    simp only [mapSet]
    split_ifs with h₁ h₂
    · simp [mapFind, h₁]
    · simp [mapFind]
    · simp [mapFind, h₁, ih]

theorem mapFind_mapSet_other (key value other : Str) (hne : other ≠ key) : ∀ m : CellMap,
    mapFind (mapSet m key value) other = mapFind m other := by
  intro m
  induction m with
  | nil =>
    have hk : ¬ key = other := fun h => hne h.symm
    simp [mapSet, mapFind, hk]
  | cons e rest ih =>
    obtain ⟨k, v⟩ := e
    simp only [mapSet]
    split_ifs with h₁ h₂
    · have hk : ¬ k = other := fun h => hne (h.symm.trans h₁)
      simp [mapFind, hk]
    · have hk : ¬ key = other := fun h => hne h.symm
      simp [mapFind, hk]
    · by_cases hk : k = other
      · simp [mapFind, hk]
      · simp [mapFind, hk, ih]

theorem get_cell_contents_value (s : spreadsheet) (cell : Str) :
    (s.get_cell_contents cell).1 = (mapFind s.cell_map cell).getD [] := by
  simp only [spreadsheet.get_cell_contents, mapIndex]
  cases mapFind s.cell_map cell <;> rfl

theorem get_cell_contents_store (s : spreadsheet) (cell : Str) :
    (s.get_cell_contents cell).2 =
      match mapFind s.cell_map cell with
      | some _ => s
      | none => s.update_cell cell [] := by
  simp only [spreadsheet.get_cell_contents, mapIndex, spreadsheet.update_cell]
  cases mapFind s.cell_map cell <;> rfl

theorem update_cell_value (s : spreadsheet) (name contents : Str) :
    ((s.update_cell name contents).get_cell_contents name).1 = contents := by
  rw [get_cell_contents_value]
  simp [spreadsheet.update_cell, mapFind_mapSet_self]

/-- C12: `update_cell(name, contents)` accepts every name and contents; afterwards
`get_cell_contents(name)` returns `contents`, `get_cell_contents(m)` returns what it
returned before for every other name `m`, and password, version, loaded flag and
file name are unchanged. -/
theorem update_cell_upsert (s : spreadsheet) (name contents : Str) :
    ((s.update_cell name contents).get_cell_contents name).1 = contents ∧
    (∀ m, m ≠ name →
      ((s.update_cell name contents).get_cell_contents m).1 = (s.get_cell_contents m).1) ∧
    (s.update_cell name contents).password = s.password ∧
    (s.update_cell name contents).version = s.version ∧
    (s.update_cell name contents).loaded = s.loaded ∧
    (s.update_cell name contents).filename = s.filename := by
  refine ⟨?_, ?_, rfl, rfl, rfl, rfl⟩
  · rw [get_cell_contents_value]
    simp [spreadsheet.update_cell, mapFind_mapSet_self]
  · intro m hm
    rw [get_cell_contents_value, get_cell_contents_value]
    simp [spreadsheet.update_cell, mapFind_mapSet_other name contents m hm]


/-- C12, on the store of the example: `A1` is overwritten, `B2` keeps its answer. -/
theorem update_cell_upsert_witness :
    "B2".toList ≠ "A1".toList ∧
    ((exampleSaved.1.update_cell "A1".toList "7".toList).get_cell_contents "A1".toList).1
      = "7".toList ∧
    ((exampleSaved.1.update_cell "A1".toList "7".toList).get_cell_contents "B2".toList).1
      = (exampleSaved.1.get_cell_contents "B2".toList).1 :=
  ⟨by decide, (update_cell_upsert exampleSaved.1 "A1".toList "7".toList).1,
    (update_cell_upsert exampleSaved.1 "A1".toList "7".toList).2.1 "B2".toList (by decide)⟩

/-! ### Calls that do not save -/

theorem save_store (s : spreadsheet) (d : Disk) : (s.save d).1 = s := by
  simp only [spreadsheet.save]
  split_ifs <;> rfl

theorem runCalls_unsaved_mutations : ∀ (calls : List Call) (s : spreadsheet) (d : Disk),
    (∀ c ∈ calls, c.isUnsavedMutation = true) →
    ∃ s', runCalls calls (s, d) = some (s', d) ∧ s'.filename = s.filename := by
  intro calls
  induction calls with
  | nil => intro s d _; exact ⟨s, rfl, rfl⟩
  | cons c rest ih =>
    intro s d h
    have hc := h c (List.mem_cons_self c rest)
    have hrest : ∀ x ∈ rest, x.isUnsavedMutation = true :=
      fun x hx => h x (List.mem_cons_of_mem c hx)
    cases c with
    | update_cell cell contents =>
      obtain ⟨s', hs', hf⟩ := ih (s.update_cell cell contents) d hrest
      exact ⟨s', by simpa [runCalls, Call.run] using hs', hf⟩
    | increment_version =>
      obtain ⟨s', hs', hf⟩ := ih s.increment_version d hrest
      exact ⟨s', by simpa [runCalls, Call.run] using hs', hf⟩
    | save => simp [Call.isUnsavedMutation] at hc
    | load fuel junk => simp [Call.isUnsavedMutation] at hc
    | create p => simp [Call.isUnsavedMutation] at hc
    | authenticate p => simp [Call.isUnsavedMutation] at hc
    | get_cell_contents cell => simp [Call.isUnsavedMutation] at hc

/-- C11: when `authenticate(p)` returns `true` for a store and a disk, then after any
sequence of `update_cell` and `increment_version` calls (no `save()` among them) the
disk is the same and `authenticate(p)` still returns `true`. -/
theorem authenticate_after_unsaved_mutations (s : spreadsheet) (d : Disk) (p : Str)
    (calls : List Call) (hauth : s.authenticate p d = true)
    (hmut : ∀ c ∈ calls, c.isUnsavedMutation = true) :
    ∃ s', runCalls calls (s, d) = some (s', d) ∧ s'.authenticate p d = true := by
  obtain ⟨s', hs', hf⟩ := runCalls_unsaved_mutations calls s d hmut
  refine ⟨s', hs', ?_⟩
  simp only [spreadsheet.authenticate, hf]
  simpa only [spreadsheet.authenticate] using hauth

/-- C11, on the store of the example: after `create("secret")`, an `update_cell` and an
`increment_version` leave `authenticate("secret")` true. -/
theorem authenticate_after_unsaved_mutations_witness :
    ((spreadsheet.new "F".toList).create "secret".toList emptyDisk).2.1.authenticate
        "secret".toList ((spreadsheet.new "F".toList).create "secret".toList emptyDisk).2.2 = true ∧
    ∃ s', runCalls [Call.update_cell "A1".toList "42".toList, Call.increment_version]
        (((spreadsheet.new "F".toList).create "secret".toList emptyDisk).2.1,
          ((spreadsheet.new "F".toList).create "secret".toList emptyDisk).2.2)
        = some (s', ((spreadsheet.new "F".toList).create "secret".toList emptyDisk).2.2) ∧
      s'.authenticate "secret".toList
        ((spreadsheet.new "F".toList).create "secret".toList emptyDisk).2.2 = true :=
  ⟨by decide,
    authenticate_after_unsaved_mutations
      ((spreadsheet.new "F".toList).create "secret".toList emptyDisk).2.1
      ((spreadsheet.new "F".toList).create "secret".toList emptyDisk).2.2
      "secret".toList [Call.update_cell "A1".toList "42".toList, Call.increment_version]
      (by decide) (by decide)⟩

/-! ### Unknown cells -/

theorem run_keeps_unwritten (name : Str) (c : Call) (s : spreadsheet) (d : Disk)
    (hc : c.writesCell name = false)
    (hs : (mapFind s.cell_map name).getD [] = []) :
    ∃ r, c.run (s, d) = some r ∧ (mapFind r.1.cell_map name).getD [] = [] := by
  cases c with
  | save => exact ⟨s.save d, rfl, by rw [save_store]; exact hs⟩
  | load fuel junk => simp [Call.writesCell] at hc
  | create p =>
    refine ⟨(s.create p d).2, rfl, ?_⟩
    simp only [spreadsheet.create, save_store]
    exact hs
  | authenticate p => exact ⟨(s, d), rfl, hs⟩
  | update_cell cell contents =>
    have hne : name ≠ cell := by
      intro h
      simp [Call.writesCell, h] at hc
    refine ⟨(s.update_cell cell contents, d), rfl, ?_⟩
    simp only [spreadsheet.update_cell, mapFind_mapSet_other cell contents name hne]
    exact hs
  | get_cell_contents cell =>
    refine ⟨((s.get_cell_contents cell).2, d), rfl, ?_⟩
    simp only [get_cell_contents_store]
    cases hf : mapFind s.cell_map cell with
    | some v => exact hs
    | none =>
      by_cases hne : name = cell
      · simp [spreadsheet.update_cell, hne, mapFind_mapSet_self]
      · simp only [spreadsheet.update_cell, mapFind_mapSet_other cell [] name hne]
        exact hs
  | increment_version => exact ⟨(s.increment_version, d), rfl, hs⟩

theorem runCalls_keeps_unwritten (name : Str) : ∀ (calls : List Call) (s : spreadsheet)
    (d : Disk), (∀ c ∈ calls, c.writesCell name = false) →
    (mapFind s.cell_map name).getD [] = [] →
    ∃ r, runCalls calls (s, d) = some r ∧ (mapFind r.1.cell_map name).getD [] = [] := by
  intro calls
  induction calls with
  | nil => intro s d _ hs; exact ⟨(s, d), rfl, hs⟩
  | cons c rest ih =>
    intro s d h hs
    obtain ⟨r₁, hr₁, hs₁⟩ := run_keeps_unwritten name c s d (h c (List.mem_cons_self c rest)) hs
    obtain ⟨r, hr, hsr⟩ := ih r₁.1 r₁.2 (fun x hx => h x (List.mem_cons_of_mem c hx)) hs₁
    exact ⟨r, by simp only [runCalls, hr₁]; exact hr, hsr⟩

/-- C13: when a name is absent from the cell map, then after any sequence of calls
among which no `update_cell` has that name and no `load` occurs (reads of any cell
included), `get_cell_contents(name)` returns the empty string. -/
theorem get_cell_contents_unwritten (s : spreadsheet) (d : Disk) (name : Str)
    (calls : List Call) (habs : mapFind s.cell_map name = none)
    (hnw : ∀ c ∈ calls, c.writesCell name = false) :
    ∃ r, runCalls calls (s, d) = some r ∧ (r.1.get_cell_contents name).1 = [] := by
  obtain ⟨r, hr, hs⟩ := runCalls_keeps_unwritten name calls s d hnw (by rw [habs]; rfl)
  exact ⟨r, hr, by rw [get_cell_contents_value]; exact hs⟩

/-- C13, on a new store: after writing `A1` and reading `B7` twice, `B7` is empty. -/
theorem get_cell_contents_unwritten_witness :
    mapFind (spreadsheet.new "F".toList).cell_map "B7".toList = none ∧
    ∃ r, runCalls [Call.create "secret".toList, Call.update_cell "A1".toList "42".toList,
          Call.get_cell_contents "B7".toList, Call.increment_version, Call.save]
        (spreadsheet.new "F".toList, emptyDisk) = some r ∧
      (r.1.get_cell_contents "B7".toList).1 = [] :=
  ⟨by decide,
    get_cell_contents_unwritten (spreadsheet.new "F".toList) emptyDisk "B7".toList
      [Call.create "secret".toList, Call.update_cell "A1".toList "42".toList,
        Call.get_cell_contents "B7".toList, Call.increment_version, Call.save]
      (by decide) (by decide)⟩


/-! ### The version counter -/

/-- C14, as stated, fails at the largest `int`: a store that loaded the version
2147483647 from its file holds -2147483648 after `increment_version()`, which is
neither the old version plus one nor greater than the old version. -/
theorem increment_version_wraps_at_max :
    ((spreadsheet.new "F".toList).load 2 0
        (emptyDisk.write "F".toList "secret 2147483647\n".toList)).map
        (fun r => (r.1, r.2.version, r.2.increment_version.version))
      = some (true, 2147483647, -2147483648) := by
  decide

/-- C14, amended: for a store whose version is an `int` below the largest one,
`increment_version()` makes the version the old version plus one, hence strictly
greater, and leaves password, cells, loaded flag, file name and the disk as they
were. -/
theorem increment_version_below_max (s : spreadsheet) (d : Disk)
    (hv : IsInt32 s.version) (hmax : s.version < INT_MAX) :
    s.increment_version.version = s.version + 1 ∧
    s.version < s.increment_version.version ∧
    s.increment_version.password = s.password ∧
    s.increment_version.cell_map = s.cell_map ∧
    s.increment_version.loaded = s.loaded ∧
    s.increment_version.filename = s.filename ∧
    Call.increment_version.run (s, d) = some (s.increment_version, d) := by
  obtain ⟨hlo, _⟩ := hv
  simp only [INT_MIN, INT_MAX] at hlo hmax
  have hver : s.increment_version.version = s.version + 1 := by
    simp only [spreadsheet.increment_version, wrap32]
    omega
  exact ⟨hver, by omega, rfl, rfl, rfl, rfl, rfl⟩

/-- C14, amended, on the store of the example (version 1). -/
theorem increment_version_below_max_witness :
    IsInt32 exampleSaved.1.version ∧ exampleSaved.1.version < INT_MAX ∧
    exampleSaved.1.increment_version.version = exampleSaved.1.version + 1 ∧
    exampleSaved.1.version < exampleSaved.1.increment_version.version :=
  ⟨by decide, by decide,
    (increment_version_below_max exampleSaved.1 exampleSaved.2 (by decide) (by decide)).1,
    (increment_version_below_max exampleSaved.1 exampleSaved.2 (by decide) (by decide)).2.1⟩

/-! ### The loaded flag over sequences of calls -/

theorem loadLoop_loaded (fuel : Nat) : ∀ (f : IStream) (s s' : spreadsheet),
    loadLoop fuel f s = some s' → s'.loaded = s.loaded := by
  induction fuel with
  | zero =>
    intro f s s' h
    simp only [loadLoop] at h
    split_ifs at h
    cases h; rfl
  | succ n ih =>
    intro f s s' h
    simp only [loadLoop] at h
    split_ifs at h
    · cases h; rfl
    · rw [ih _ _ _ h]
      exact (loadStep_fields f s).2.2.1

theorem load_loaded (fuel : Nat) (junk : Int) (s : spreadsheet) (d : Disk)
    (r : Bool × spreadsheet) (h : s.load fuel junk d = some r) : r.2.loaded = s.loaded := by
  simp only [spreadsheet.load] at h
  split at h
  · cases h; rfl
  · split at h
    · cases h
    · rename_i s₂ hs₂
      cases h
      have hl := loadLoop_loaded fuel _ _ s₂ hs₂
      exact hl

theorem run_loaded (c : Call) (s : spreadsheet) (d : Disk) (r : spreadsheet × Disk)
    (h : c.run (s, d) = some r) : r.1.loaded = s.loaded := by
  cases c with
  | save => simp only [Call.run, Option.some.injEq] at h; rw [← h, save_store]
  | load fuel junk =>
    simp only [Call.run] at h
    cases hl : s.load fuel junk d with
    | none => rw [hl] at h; cases h
    | some x =>
      rw [hl] at h
      simp only [Option.map_some', Option.some.injEq] at h
      rw [← h]
      exact load_loaded fuel junk s d x hl
  | create p =>
    simp only [Call.run, Option.some.injEq] at h
    rw [← h]
    simp only [spreadsheet.create, save_store]
  | authenticate p => simp only [Call.run, Option.some.injEq] at h; rw [← h]
  | update_cell cell contents => simp only [Call.run, Option.some.injEq] at h; rw [← h]; rfl
  | get_cell_contents cell => simp only [Call.run, Option.some.injEq] at h; rw [← h]; rfl
  | increment_version => simp only [Call.run, Option.some.injEq] at h; rw [← h]; rfl

theorem runCalls_loaded : ∀ (calls : List Call) (st r : spreadsheet × Disk),
    runCalls calls st = some r → r.1.loaded = st.1.loaded := by
  intro calls
  induction calls with
  | nil => intro st r h; simp only [runCalls, Option.some.injEq] at h; rw [h]
  | cons c rest ih =>
    intro st r h
    obtain ⟨s, d⟩ := st
    simp only [runCalls] at h
    cases hc : c.run (s, d) with
    | none => rw [hc] at h; cases h
    | some st₁ =>
      rw [hc] at h
      rw [ih st₁ r h]
      exact run_loaded c s d st₁ hc

/-- C17: every state reached from the constructor by a sequence of calls of `save`,
`load`, `create`, `authenticate`, `update_cell`, `get_cell_contents` and
`increment_version` has `is_loaded()` false and `get_version()` equal to -1. -/
theorem never_loaded (filename : Str) (d : Disk) (calls : List Call)
    (r : spreadsheet × Disk)
    (h : runCalls calls (spreadsheet.new filename, d) = some r) :
    r.1.is_loaded = false ∧ r.1.get_version = -1 := by
  have hl : r.1.loaded = false := runCalls_loaded calls _ r h
  simp [spreadsheet.get_version, spreadsheet.is_loaded, hl]

/-- C17, on the calls of the example followed by a `load`, an `authenticate` and a read. -/
theorem never_loaded_witness :
    runCalls [Call.create "secret".toList, Call.update_cell "A1".toList "42".toList,
        Call.increment_version, Call.save, Call.load 3 0, Call.authenticate "secret".toList,
        Call.get_cell_contents "A1".toList]
      (spreadsheet.new "F".toList, emptyDisk)
      = some ({ loaded := false, version := 1, filename := "F".toList,
                cell_map := [([], []), ("A1".toList, " 42".toList)],
                password := "secret".toList }, exampleSaved.2) ∧
    ({ loaded := false, version := 1, filename := "F".toList,
       cell_map := [([], []), ("A1".toList, " 42".toList)],
       password := "secret".toList } : spreadsheet).get_version = -1 :=
  ⟨rfl,
    (never_loaded "F".toList emptyDisk
      [Call.create "secret".toList, Call.update_cell "A1".toList "42".toList,
        Call.increment_version, Call.save, Call.load 3 0, Call.authenticate "secret".toList,
        Call.get_cell_contents "A1".toList]
      ({ loaded := false, version := 1, filename := "F".toList,
         cell_map := [([], []), ("A1".toList, " 42".toList)],
         password := "secret".toList }, exampleSaved.2) rfl).2⟩


/-! ### Reading a cell -/

/-- C18, as stated, fails for a name absent from the map: on the store made by
`create("secret")`, reading `B7` returns the empty string and changes the store, and
a `save()` after the read writes the line of `B7` that a `save()` before the read
does not write. -/
theorem get_cell_contents_inserts_entry :
    (((spreadsheet.new "F".toList).create "secret".toList emptyDisk).2.1.get_cell_contents
        "B7".toList).1 = [] ∧
    (((spreadsheet.new "F".toList).create "secret".toList emptyDisk).2.1.get_cell_contents
        "B7".toList).2 ≠ ((spreadsheet.new "F".toList).create "secret".toList emptyDisk).2.1 ∧
    (((spreadsheet.new "F".toList).create "secret".toList emptyDisk).2.1.save
        emptyDisk).2.files "F".toList = some "secret 0\n".toList ∧
    ((((spreadsheet.new "F".toList).create "secret".toList emptyDisk).2.1.get_cell_contents
        "B7".toList).2.save emptyDisk).2.files "F".toList = some "secret 0\nB7 \n".toList := by
  decide

/-- C18, amended: for a name present in the cell map `get_cell_contents(name)` leaves
the store unchanged, so a following `save()` does what it would have done before
the read; for an absent name it inserts the entry of that name with empty contents,
as `update_cell(name, "")` does. In both cases password, version, loaded flag and
file name are unchanged and so is what `get_cell_contents` returns for every name. -/
theorem get_cell_contents_effect (s : spreadsheet) (name : Str) :
    (mapFind s.cell_map name ≠ none →
      (s.get_cell_contents name).2 = s ∧
      ∀ d : Disk, (s.get_cell_contents name).2.save d = s.save d) ∧
    (mapFind s.cell_map name = none →
      (s.get_cell_contents name).2 = s.update_cell name []) ∧
    (∀ m, ((s.get_cell_contents name).2.get_cell_contents m).1 = (s.get_cell_contents m).1) ∧
    (s.get_cell_contents name).2.password = s.password ∧
    (s.get_cell_contents name).2.version = s.version ∧
    (s.get_cell_contents name).2.loaded = s.loaded ∧
    (s.get_cell_contents name).2.filename = s.filename := by
  refine ⟨?_, ?_, ?_, rfl, rfl, rfl, rfl⟩
  · intro h
    have hs : (s.get_cell_contents name).2 = s := by
      rw [get_cell_contents_store]
      cases hf : mapFind s.cell_map name with
      | none => exact absurd hf h
      | some v => rfl
    exact ⟨hs, fun d => by rw [hs]⟩
  · intro h
    rw [get_cell_contents_store, h]
  · intro m
    rw [get_cell_contents_store]
    cases hf : mapFind s.cell_map name with
    | some v => rfl
    | none =>
      simp only
      by_cases hm : m = name
      · rw [hm, (update_cell_value s name []), get_cell_contents_value, hf]
        rfl
      · rw [get_cell_contents_value, get_cell_contents_value]
        simp only [spreadsheet.update_cell, mapFind_mapSet_other name [] m hm]

/-- C18, amended, on the store of the example: `A1` is present, `B7` is absent. -/
theorem get_cell_contents_effect_witness :
    (exampleSaved.1.get_cell_contents "A1".toList).2 = exampleSaved.1 ∧
    (exampleSaved.1.get_cell_contents "B7".toList).2
      = exampleSaved.1.update_cell "B7".toList [] :=
  ⟨((get_cell_contents_effect exampleSaved.1 "A1".toList).1 (by decide)).1,
   (get_cell_contents_effect exampleSaved.1 "B7".toList).2.1 (by decide)⟩


/-! ### The session -/

theorem handle_message_store (σ : session) (msg : Message) (conn : connection) (d : Disk) :
    (σ.handle_message msg conn d).1.ss
      = ((σ.ss.get_cell_contents msg.cell).2.update_cell msg.cell msg.contents).increment_version := by
  simp only [session.handle_message, save_store]

theorem handle_message_stack (σ : session) (msg : Message) (conn : connection) (d : Disk) :
    (σ.handle_message msg conn d).1.undo_stack
      = σ.undo_stack ++ [{ cell := msg.cell, contents := (σ.ss.get_cell_contents msg.cell).1 }] := by
  simp only [session.handle_message]

theorem undo_after_push (ss : spreadsheet) (conns : List connection)
    (stack : List undo_oper) (u : undo_oper) :
    session.undo { ss := ss, connections := conns, undo_stack := stack ++ [u] }
      = { ss := ss.update_cell u.cell u.contents, connections := conns, undo_stack := stack } := by
  simp [session.undo]

/-- C15: handling an edit of cell `C` appends to the undo stack the pair of `C` and
the contents `C` had before the edit, and sets `C` to the new contents; an undo
right after removes that entry, gives `C` its old contents again and leaves the
version counter where the edit put it. -/
theorem undo_restores_contents (σ : session) (msg : Message) (conn : connection) (d : Disk) :
    (σ.handle_message msg conn d).1.undo_stack
      = σ.undo_stack ++ [{ cell := msg.cell, contents := (σ.ss.get_cell_contents msg.cell).1 }] ∧
    ((σ.handle_message msg conn d).1.ss.get_cell_contents msg.cell).1 = msg.contents ∧
    (σ.handle_message msg conn d).1.undo.undo_stack = σ.undo_stack ∧
    ((σ.handle_message msg conn d).1.undo.ss.get_cell_contents msg.cell).1
      = (σ.ss.get_cell_contents msg.cell).1 ∧
    (σ.handle_message msg conn d).1.undo.ss.version
      = (σ.handle_message msg conn d).1.ss.version := by
  have hσ : (σ.handle_message msg conn d).1
      = { ss := ((σ.ss.get_cell_contents msg.cell).2.update_cell msg.cell
                  msg.contents).increment_version,
          connections := σ.connections,
          undo_stack := σ.undo_stack ++
            [{ cell := msg.cell, contents := (σ.ss.get_cell_contents msg.cell).1 }] } := by
    simp only [session.handle_message, save_store]
  rw [hσ, undo_after_push]
  refine ⟨rfl, ?_, rfl, ?_, rfl⟩
  · exact update_cell_value _ msg.cell msg.contents
  · exact update_cell_value _ msg.cell _

theorem deliveredTo_perm (out₁ out₂ : List (connection × CellChanged)) (c : connection)
    (h : out₁.Perm out₂) : deliveredTo out₁ c = deliveredTo out₂ c :=
  (h.filter _).length_eq

/-- C16: in a session whose live connections are exactly the three distinct
connections `A`, `B`, `C` (in any order), handling one edit from `A` delivers the
change, with the new contents and the version after the increment, once to `B`,
once to `C`, and not to `A`; nothing else is delivered. -/
theorem broadcast_completeness (σ : session) (msg : Message) (d : Disk)
    (A B C : connection) (hAB : A ≠ B) (hAC : A ≠ C) (hBC : B ≠ C)
    (hconn : σ.connections.Perm [A, B, C]) :
    (σ.handle_message msg A d).2.2.Perm
      [(B, { cell := msg.cell, contents := msg.contents,
             version := (σ.handle_message msg A d).1.ss.version }),
       (C, { cell := msg.cell, contents := msg.contents,
             version := (σ.handle_message msg A d).1.ss.version })] ∧
    deliveredTo (σ.handle_message msg A d).2.2 B = 1 ∧
    deliveredTo (σ.handle_message msg A d).2.2 C = 1 ∧
    deliveredTo (σ.handle_message msg A d).2.2 A = 0 := by
  have hfilter : ([A, B, C].filter (fun c => decide (c ≠ A))) = [B, C] := by
    simp [List.filter, hAB.symm, hAC.symm]
  have hperm : (σ.handle_message msg A d).2.2.Perm
      [(B, { cell := msg.cell, contents := msg.contents,
             version := (σ.handle_message msg A d).1.ss.version }),
       (C, { cell := msg.cell, contents := msg.contents,
             version := (σ.handle_message msg A d).1.ss.version })] := by
    have h := ((hconn.filter (fun c => decide (c ≠ A))).map
      (fun c => (c, CellChanged.mk msg.cell msg.contents
        (σ.handle_message msg A d).1.ss.version)))
    rw [hfilter] at h
    simpa [session.handle_message, save_store] using h
  refine ⟨hperm, ?_, ?_, ?_⟩
  · rw [deliveredTo_perm _ _ B hperm]
    simp [deliveredTo, hBC.symm]
  · rw [deliveredTo_perm _ _ C hperm]
    simp [deliveredTo, hBC]
  · rw [deliveredTo_perm _ _ A hperm]
    simp [deliveredTo, hAB.symm, hAC.symm]

/-- C16, on a session whose connections joined in the order 2, 0, 1, with an edit
from connection 0. -/
theorem broadcast_completeness_witness :
    (0 : connection) ≠ 1 ∧ (0 : connection) ≠ 2 ∧ (1 : connection) ≠ 2 ∧
    deliveredTo (session.handle_message
      { ss := exampleSaved.1, connections := [2, 0, 1], undo_stack := [] }
      { cell := "A1".toList, contents := "43".toList } 0 exampleSaved.2).2.2 1 = 1 ∧
    deliveredTo (session.handle_message
      { ss := exampleSaved.1, connections := [2, 0, 1], undo_stack := [] }
      { cell := "A1".toList, contents := "43".toList } 0 exampleSaved.2).2.2 2 = 1 ∧
    deliveredTo (session.handle_message
      { ss := exampleSaved.1, connections := [2, 0, 1], undo_stack := [] }
      { cell := "A1".toList, contents := "43".toList } 0 exampleSaved.2).2.2 0 = 0 :=
  ⟨by decide, by decide, by decide,
    (broadcast_completeness
      { ss := exampleSaved.1, connections := [2, 0, 1], undo_stack := [] }
      { cell := "A1".toList, contents := "43".toList } exampleSaved.2 0 1 2
      (by decide) (by decide) (by decide) (by decide)).2⟩


/-! ### The cell map after saving and loading -/

theorem takeLine_append (c : Str) (hc : ∀ x ∈ c, x ≠ '\n') (r : Str) :
    takeLine (c ++ '\n' :: r) = (c, r, true) := by
  induction c with
  | nil => simp [takeLine]
  | cons a as ih =>
    have ha : a ≠ '\n' := hc a (List.mem_cons_self a as)
    have ih' := ih (fun x hx => hc x (List.mem_cons_of_mem a hx))
    simp [takeLine, ha, ih']

theorem getline_rest_of_line (c r : Str) (hc : ∀ x ∈ c, x ≠ '\n') (old : Str) :
    getline { buf := ' ' :: (c ++ '\n' :: r), eofbit := false, failbit := false } old
      = ({ buf := r, eofbit := false, failbit := false }, ' ' :: c) := by
  have h := takeLine_append (' ' :: c) (by
    intro x hx
    rcases List.mem_cons.1 hx with h₁ | h₁
    · rw [h₁]; decide
    · exact hc x h₁) r
  simp only [List.cons_append] at h
  simp [getline, sentry, IStream.good, h]

theorem loadStep_cell_line (n c r : Str) (s : spreadsheet)
    (hne : n ≠ []) (hn : ∀ x ∈ n, isspace x = false) (hc : ∀ x ∈ c, x ≠ '\n') :
    loadStep { buf := n ++ ' ' :: (c ++ '\n' :: r), eofbit := false, failbit := false } s
      = ({ buf := r, eofbit := false, failbit := false }, s.update_cell n (' ' :: c)) := by
  have h₁ := readString_token n hne hn ' ' (c ++ '\n' :: r) (by decide) []
  simp only [IStream.opened] at h₁
  simp only [loadStep, h₁, getline_rest_of_line c r hc]

theorem loadStep_at_end (s : spreadsheet) :
    loadStep { buf := [], eofbit := false, failbit := false } s
      = ({ buf := [], eofbit := true, failbit := true }, s.update_cell [] []) := by
  rfl

theorem loadLoop_skip_newline (fuel : Nat) (b : Str) (s : spreadsheet) :
    loadLoop fuel { buf := '\n' :: b, eofbit := false, failbit := false } s
      = loadLoop fuel { buf := b, eofbit := false, failbit := false } s := by
  have hs : sentry { buf := '\n' :: b, eofbit := false, failbit := false } true
      = sentry { buf := b, eofbit := false, failbit := false } true := by
    have hnl : isspace '\n' = true := by decide
    simp only [sentry, IStream.good, skipws, hnl, if_true]
    cases skipws b <;> rfl
  have hstep : loadStep { buf := '\n' :: b, eofbit := false, failbit := false } s
      = loadStep { buf := b, eofbit := false, failbit := false } s := by
    simp only [loadStep, readString, hs]
  cases fuel with
  | zero => rfl
  | succ n => simp only [loadLoop, IStream.eof, hstep]

/-- The read loop on the cell lines `save` wrote: each line gives one `update_cell`
with the contents behind a space, and the pass that meets the end of the file
gives one more, with empty name and contents. -/
theorem loadLoop_cell_lines : ∀ (m : CellMap) (s : spreadsheet) (fuel : Nat),
    (∀ e ∈ m, e.1 ≠ [] ∧ ∀ x ∈ e.1, isspace x = false) →
    (∀ e ∈ m, ∀ x ∈ e.2, x ≠ '\n') → m.length < fuel →
    loadLoop fuel { buf := writeCells m, eofbit := false, failbit := false } s
      = some { s with
          cell_map := mapSet (m.foldl (fun a e => mapSet a e.1 (' ' :: e.2)) s.cell_map) [] [] } := by
  intro m
  induction m with
  | nil =>
    intro s fuel _ _ hfuel
    cases fuel with
    | zero => omega
    | succ k =>
      simp only [writeCells, loadLoop, IStream.eof, Bool.false_eq_true, if_false,
        loadStep_at_end, List.foldl_nil]
      cases k <;> simp [loadLoop, IStream.eof, spreadsheet.update_cell]
  | cons e rest ih =>
    intro s fuel hnames hcont hfuel
    cases fuel with
    | zero => omega
    | succ k =>
      have he := hnames e (List.mem_cons_self e rest)
      have hce := hcont e (List.mem_cons_self e rest)
      have hline : writeCells (e :: rest) = e.1 ++ ' ' :: (e.2 ++ '\n' :: writeCells rest) := by
        simp [writeCells, cellLine]
      rw [hline]
      simp only [loadLoop, IStream.eof, Bool.false_eq_true, if_false,
        loadStep_cell_line e.1 e.2 (writeCells rest) s he.1 he.2 hce]
      rw [ih (s.update_cell e.1 (' ' :: e.2)) k
        (fun x hx => hnames x (List.mem_cons_of_mem e hx))
        (fun x hx => hcont x (List.mem_cons_of_mem e hx))
        (by simp only [List.length_cons] at hfuel; omega)]
      rfl

theorem mapSet_append (key value : Str) : ∀ l : CellMap,
    (∀ e ∈ l, strLt e.1 key = true) → mapSet l key value = l ++ [(key, value)] := by
  intro l
  induction l with
  | nil => intro _; rfl
  | cons e rest ih =>
    obtain ⟨k, v⟩ := e
    intro h
    have hk : strLt k key = true := h (k, v) (List.mem_cons_self _ _)
    have hne : ¬ k = key := by
      intro hEq
      rw [hEq] at hk
      have := strLt_asymm key key hk
      rw [hk] at this
      cases this
    have hnot : strLt key k = false := strLt_asymm k key hk
    simp [mapSet, hne, hnot, ih (fun x hx => h x (List.mem_cons_of_mem _ hx))]

theorem foldl_mapSet_ascending : ∀ (m acc : CellMap),
    (∀ a ∈ acc, ∀ e ∈ m, strLt a.1 e.1 = true) → keysAscending m = true →
    m.foldl (fun acc e => mapSet acc e.1 (' ' :: e.2)) acc
      = acc ++ m.map (fun e => (e.1, ' ' :: e.2)) := by
  intro m
  induction m with
  | nil => intro acc _ _; simp
  | cons e rest ih =>
    intro acc hacc hm
    have hset : mapSet acc e.1 (' ' :: e.2) = acc ++ [(e.1, ' ' :: e.2)] :=
      mapSet_append e.1 (' ' :: e.2) acc (fun a ha => hacc a ha e (List.mem_cons_self e rest))
    simp only [List.foldl_cons, hset, List.map_cons]
    rw [ih (acc ++ [(e.1, ' ' :: e.2)]) ?_ (keysAscending_tail e rest hm)]
    · simp
    · intro a ha x hx
      rcases List.mem_append.1 ha with h₁ | h₁
      · exact hacc a h₁ x (List.mem_cons_of_mem e hx)
      · simp only [List.mem_singleton] at h₁
        rw [h₁]
        exact keysAscending_head_lt e rest hm x hx

theorem mapSet_empty_name : ∀ l : CellMap, (∀ e ∈ l, e.1 ≠ []) →
    mapSet l [] [] = ([], []) :: l := by
  intro l h
  cases l with
  | nil => rfl
  | cons e rest =>
    obtain ⟨k, v⟩ := e
    have hk : k ≠ [] := h (k, v) (List.mem_cons_self _ _)
    cases k with
    | nil => exact absurd rfl hk
    | cons a as => simp [mapSet, strLt]

/-- C19: for a store with a non-empty whitespace-free password, whose cell names are
non-empty and whitespace-free and whose contents hold no newline, `save()` and then
`load()` on a new object for the same file gives a cell map made of one entry with
empty name and empty contents, followed by the original entries in their order,
each with a space put in front of its contents, and nothing else. -/
theorem save_load_cell_map (s : spreadsheet) (d : Disk) (fuel : Nat) (junk : Int)
    (hw : d.writable s.filename = true)
    (hne : s.password ≠ []) (hp : ∀ c ∈ s.password, isspace c = false)
    (hv : IsInt32 s.version) (hm : keysAscending s.cell_map = true)
    (hnames : ∀ e ∈ s.cell_map, e.1 ≠ [] ∧ ∀ x ∈ e.1, isspace x = false)
    (hcont : ∀ e ∈ s.cell_map, ∀ x ∈ e.2, x ≠ '\n')
    (hfuel : s.cell_map.length < fuel) :
    ((spreadsheet.new s.filename).load fuel junk (s.save d).2).map
        (fun r => (r.1, r.2.cell_map))
      = some (true, ([], []) :: s.cell_map.map (fun e => (e.1, ' ' :: e.2))) := by
  have hfile : (s.save d).2.files (spreadsheet.new s.filename).filename = some s.fileText :=
    save_files s d hw
  have htok := readString_token s.password hne hp ' '
    (decimal s.version ++ '\n' :: writeCells s.cell_map) (by decide) []
  have hint := readInt_decimal s.version hv (writeCells s.cell_map) junk
  have hfold := foldl_mapSet_ascending s.cell_map [] (fun a ha => by cases ha) hm
  have hloop := loadLoop_cell_lines s.cell_map
    { spreadsheet.new s.filename with password := s.password, version := s.version }
    fuel hnames hcont hfuel
  simp only [spreadsheet.load, hfile, fileText_shape, htok, hint, loadLoop_skip_newline, hloop,
    Option.map_some']
  simp only [spreadsheet.new, hfold, List.nil_append]
  rw [mapSet_empty_name]
  intro e he
  obtain ⟨x, hx, hxe⟩ := List.mem_map.1 he
  rw [← hxe]
  exact (hnames x hx).1

/-- C19, on the store with the cells `A1` and `B2`. -/
theorem save_load_cell_map_witness :
    twoCellStore.cell_map = [("A1".toList, "42".toList), ("B2".toList, "x y".toList)] ∧
    ((spreadsheet.new twoCellStore.filename).load 3 0 (twoCellStore.save emptyDisk).2).map
        (fun r => (r.1, r.2.cell_map))
      = some (true, ([], []) :: twoCellStore.cell_map.map (fun e => (e.1, ' ' :: e.2))) :=
  ⟨by decide,
    save_load_cell_map twoCellStore emptyDisk 3 0 (by decide) (by decide) (by decide)
      (by decide) (by decide) (by decide) (by decide) (by decide)⟩

end SpreadsheetWeb
